import Mathlib

/-!
Verification of the FR/NFR extraction pipeline.

A shallow embedding of the core pipeline of the
"Automatic Extraction of FR and NFR from User Stories" system:
text preprocessing (`text_preprocessor.py`), requirement-sentence
detection and extraction (`requirement_extractor.py`), and FR/NFR
classification (`requirement_classifier.py`), together with the
configuration tables of `config.py`.

Strings are modelled as `List Char`.  The external NLTK linguistic
primitives (sentence segmentation, word tokenization, POS tagging,
lemmatization, the base stopword set) are abstracted as a record of
functions (`NLP`), per the design treating them as a black-box service.
Python regular-expression searching for the fixed patterns of the
source is modelled by a small character-class regex engine with a
Brzozowski-derivative matcher, proved equivalent to a declarative
matching semantics; the three capturing extraction patterns (which need
leftmost, first-terminator capture semantics) are embedded as dedicated
scanning functions mirroring `re.search(...).group(1)` for those exact
patterns.
-/

namespace FRNFR

/-! ## Characters and strings -/

/-- ASCII lower-casing of one character: model of Python `str.lower`
restricted to ASCII (every string handled by the pipeline's config and
patterns is ASCII). -/
def pyLower (c : Char) : Char :=
  if 65 ≤ c.toNat ∧ c.toNat ≤ 90 then Char.ofNat (c.toNat + 32) else c

/-- Lower-casing of a string (Python `str.lower`). -/
def lowerStr (s : List Char) : List Char := s.map pyLower

/-- Test `hasPre p s`: true when `p` is a leading segment of `s`. -/
def hasPre : List Char → List Char → Bool
  | [], _ => true
  | _ :: _, [] => false
  | c :: p, d :: s => c == d && hasPre p s

/-- Python substring test `needle in hay`. -/
def containsSub (needle : List Char) : List Char → Bool
  | [] => hasPre needle []
  | s@(_ :: t) => hasPre needle s || containsSub needle t

/-- Declarative substring relation: `n` occurs contiguously inside `h`. -/
def SubstrOf (n h : List Char) : Prop := ∃ p q, p ++ n ++ q = h

/-- Python `str.strip()`: remove whitespace from both ends. -/
def stripStr (s : List Char) : List Char :=
  (((s.dropWhile Char.isWhitespace).reverse).dropWhile Char.isWhitespace).reverse

/-- Helper for whitespace splitting (Python `str.split()`), with an
accumulator holding the current word reversed. -/
def splitWSAux : List Char → List Char → List (List Char)
  | [], acc => if acc.isEmpty then [] else [acc.reverse]
  | c :: rest, acc =>
    if c.isWhitespace then
      if acc.isEmpty then splitWSAux rest [] else acc.reverse :: splitWSAux rest []
    else splitWSAux rest (c :: acc)

/-- Python `str.split()` (split on whitespace runs, no empty parts). -/
def splitWS (s : List Char) : List (List Char) := splitWSAux s []

/-- A character kept verbatim by `clean_text`'s substitution step:
the Python class is all of word characters, whitespace, period, comma
and hyphen; every other character is replaced by a space. -/
def keptChar (c : Char) : Bool :=
  c.isAlphanum || c == '_' || c.isWhitespace || c == '.' || c == ',' || c == '-'

theorem len_dropWhile_le {α : Type} (p : α → Bool) (l : List α) :
    (l.dropWhile p).length ≤ l.length := by
  induction l with
  | nil => simp
  | cons a l ih =>
    rw [List.dropWhile_cons]
    by_cases h : p a = true
    · simp only [if_pos h, List.length_cons]
      omega
    · simp [h]

/-- Helper for whitespace collapsing: `inRun` records whether the
previous character belonged to a whitespace run whose single
replacement space has already been emitted. -/
def collapseWSAux (inRun : Bool) : List Char → List Char
  | [] => []
  | c :: rest =>
    if c.isWhitespace then
      if inRun then collapseWSAux true rest else ' ' :: collapseWSAux true rest
    else c :: collapseWSAux false rest

/-- Model of `re.sub(r'\s+', ' ', text)`: each maximal whitespace run
becomes a single space. -/
def collapseWS (l : List Char) : List Char := collapseWSAux false l

/-! ## A character-class regex engine for the fixed patterns

Only the constructs appearing in the source's patterns are embedded:
literal characters, character classes (`\d`, `\s`, `.`), concatenation,
alternation and Kleene star (from which `+` and `?` are derived).
Python's `re.search` (match anywhere) over these constructs is modelled
by `rsearch`, proved equivalent to the declarative `RSearches`. -/

/-- Regex syntax: empty string, single character from a class,
concatenation, alternation, Kleene star. -/
inductive RE where
  | eps : RE
  | cls : (Char → Bool) → RE
  | cat : RE → RE → RE
  | alt : RE → RE → RE
  | star : RE → RE

/-- Declarative matching semantics.  The star-step constructor requires
a nonempty first block, which yields the same language and makes
inversion straightforward. -/
inductive RMatch : RE → List Char → Prop where
  | eps : RMatch .eps []
  | cls {p : Char → Bool} {c : Char} : p c = true → RMatch (.cls p) [c]
  | cat {a b s t} : RMatch a s → RMatch b t → RMatch (.cat a b) (s ++ t)
  | altL {a b s} : RMatch a s → RMatch (.alt a b) s
  | altR {a b s} : RMatch b s → RMatch (.alt a b) s
  | starNil {a} : RMatch (.star a) []
  | starCons {a c s t} : RMatch a (c :: s) → RMatch (.star a) t →
      RMatch (.star a) (c :: s ++ t)

/-- A regex matching nothing at all. -/
def REfail : RE := .cls (fun _ => false)

/-- Does the regex accept the empty string? -/
def nullable : RE → Bool
  | .eps => true
  | .cls _ => false
  | .cat a b => nullable a && nullable b
  | .alt a b => nullable a || nullable b
  | .star _ => true

/-- Brzozowski derivative with respect to one character. -/
def deriv : RE → Char → RE
  | .eps, _ => REfail
  | .cls p, c => if p c then .eps else REfail
  | .cat a b, c =>
    if nullable a then .alt (.cat (deriv a c) b) (deriv b c)
    else .cat (deriv a c) b
  | .alt a b, c => .alt (deriv a c) (deriv b c)
  | .star a, c => .cat (deriv a c) (.star a)

theorem eps_inv {s : List Char} (h : RMatch .eps s) : s = [] := by
  cases h
  rfl

theorem cls_inv {p : Char → Bool} {s : List Char} (h : RMatch (.cls p) s) :
    ∃ c, s = [c] ∧ p c = true := by
  cases h with
  | cls hp => exact ⟨_, rfl, hp⟩

theorem cat_inv {a b : RE} {s : List Char} (h : RMatch (.cat a b) s) :
    ∃ u v, s = u ++ v ∧ RMatch a u ∧ RMatch b v := by
  cases h with
  | cat h1 h2 => exact ⟨_, _, rfl, h1, h2⟩

theorem alt_inv {a b : RE} {s : List Char} (h : RMatch (.alt a b) s) :
    RMatch a s ∨ RMatch b s := by
  cases h with
  | altL h => exact Or.inl h
  | altR h => exact Or.inr h

theorem star_inv {a : RE} {s : List Char} (h : RMatch (.star a) s) :
    s = [] ∨ ∃ c u t, s = c :: u ++ t ∧ RMatch a (c :: u) ∧ RMatch (.star a) t := by
  cases h with
  | starNil => exact Or.inl rfl
  | starCons h1 h2 => exact Or.inr ⟨_, _, _, rfl, h1, h2⟩

theorem nullable_iff (r : RE) : nullable r = true ↔ RMatch r [] := by
  induction r with
  | eps =>
    simp only [nullable, true_iff]
    exact .eps
  | cls p =>
    simp only [nullable, Bool.false_eq_true, false_iff]
    intro h
    rcases cls_inv h with ⟨c, hc, _⟩
    cases hc
  | cat a b iha ihb =>
    simp only [nullable, Bool.and_eq_true, iha, ihb]
    constructor
    · rintro ⟨ha, hb⟩
      exact (List.nil_append []) ▸ RMatch.cat ha hb
    · intro h
      rcases cat_inv h with ⟨u, v, huv, hu, hv⟩
      rcases List.append_eq_nil.mp huv.symm with ⟨hu0, hv0⟩
      subst hu0
      subst hv0
      exact ⟨hu, hv⟩
  | alt a b iha ihb =>
    simp only [nullable, Bool.or_eq_true, iha, ihb]
    constructor
    · rintro (h | h)
      · exact .altL h
      · exact .altR h
    · intro h
      exact alt_inv h
  | star a iha =>
    simp only [nullable, true_iff]
    exact .starNil

theorem rmatch_fail (s : List Char) : ¬ RMatch REfail s := by
  intro h
  rcases cls_inv h with ⟨c, _, hp⟩
  simp at hp

theorem deriv_sound (r : RE) (c : Char) (s : List Char)
    (h : RMatch (deriv r c) s) : RMatch r (c :: s) := by
  induction r generalizing s with
  | eps => exact absurd h (rmatch_fail s)
  | cls p =>
    by_cases hp : p c = true
    · simp only [deriv, if_pos hp] at h
      rw [eps_inv h]
      exact .cls hp
    · simp only [deriv, if_neg hp] at h
      exact absurd h (rmatch_fail s)
  | cat a b iha ihb =>
    by_cases hn : nullable a = true
    · simp only [deriv, if_pos hn] at h
      rcases alt_inv h with h | h
      · rcases cat_inv h with ⟨u, v, huv, hu, hv⟩
        subst huv
        exact List.cons_append c u v ▸ RMatch.cat (iha u hu) hv
      · exact (List.nil_append (c :: s)) ▸
          RMatch.cat ((nullable_iff a).mp hn) (ihb s h)
    · simp only [deriv, if_neg hn] at h
      rcases cat_inv h with ⟨u, v, huv, hu, hv⟩
      subst huv
      exact List.cons_append c u v ▸ RMatch.cat (iha u hu) hv
  | alt a b iha ihb =>
    simp only [deriv] at h
    rcases alt_inv h with h | h
    · exact .altL (iha s h)
    · exact .altR (ihb s h)
  | star a iha =>
    simp only [deriv] at h
    rcases cat_inv h with ⟨u, v, huv, hu, hv⟩
    subst huv
    exact RMatch.starCons (iha u hu) hv

theorem deriv_complete (r : RE) (c : Char) (s : List Char)
    (h : RMatch r (c :: s)) : RMatch (deriv r c) s := by
  induction r generalizing s with
  | eps => cases eps_inv h
  | cls p =>
    rcases cls_inv h with ⟨d, hd, hp⟩
    rcases List.cons.injEq .. ▸ hd with ⟨hdc, hs⟩
    have hcd : c = d := by injection hd
    have hs0 : s = [] := by injection hd
    subst hcd
    subst hs0
    simp only [deriv, if_pos hp]
    exact .eps
  | cat a b iha ihb =>
    rcases cat_inv h with ⟨u, v, huv, hu, hv⟩
    cases u with
    | nil =>
      have hn : nullable a = true := (nullable_iff a).mpr hu
      simp only [List.nil_append] at huv
      subst huv
      simp only [deriv, if_pos hn]
      exact .altR (ihb s hv)
    | cons d u =>
      simp only [List.cons_append, List.cons.injEq] at huv
      rcases huv with ⟨hcd, huv⟩
      subst hcd
      subst huv
      have hcat : RMatch (.cat (deriv a c) b) (u ++ v) :=
        RMatch.cat (iha u hu) hv
      by_cases hn : nullable a = true
      · simp only [deriv, if_pos hn]
        exact .altL hcat
      · simp only [deriv, if_neg hn]
        exact hcat
  | alt a b iha ihb =>
    rcases alt_inv h with h | h
    · exact .altL (iha s h)
    · exact .altR (ihb s h)
  | star a iha =>
    rcases star_inv h with h0 | ⟨d, u, t, hdu, hu, ht⟩
    · cases h0
    · simp only [List.cons_append, List.cons.injEq] at hdu
      rcases hdu with ⟨hcd, hut⟩
      subst hcd
      subst hut
      simp only [deriv]
      exact RMatch.cat (iha u hu) ht

/-- Does the regex match the whole string? -/
def rmatch (r : RE) : List Char → Bool
  | [] => nullable r
  | c :: s => rmatch (deriv r c) s

/-- Does the regex match some leading segment of the string? -/
def matchesPre (r : RE) : List Char → Bool
  | [] => nullable r
  | c :: s => nullable r || matchesPre (deriv r c) s

/-- Does the regex match somewhere inside the string
(Python `re.search`)? -/
def rsearch (r : RE) : List Char → Bool
  | [] => nullable r
  | c :: rest => matchesPre r (c :: rest) || rsearch r rest

/-- Declarative version of `re.search`: some contiguous segment of `s`
is matched by `r`. -/
def RSearches (r : RE) (s : List Char) : Prop :=
  ∃ pre mid post, pre ++ mid ++ post = s ∧ RMatch r mid

theorem matchesPre_iff (r : RE) (s : List Char) :
    matchesPre r s = true ↔ ∃ p q, p ++ q = s ∧ RMatch r p := by
  induction s generalizing r with
  | nil =>
    simp only [matchesPre, nullable_iff]
    constructor
    · intro h
      exact ⟨[], [], rfl, h⟩
    · rintro ⟨p, q, hpq, hm⟩
      rcases List.append_eq_nil.mp hpq with ⟨hp, _⟩
      subst hp
      exact hm
  | cons c rest ih =>
    simp only [matchesPre, Bool.or_eq_true, nullable_iff, ih]
    constructor
    · rintro (h | ⟨p, q, hpq, hm⟩)
      · exact ⟨[], c :: rest, rfl, h⟩
      · subst hpq
        exact ⟨c :: p, q, rfl, deriv_sound r c p hm⟩
    · rintro ⟨p, q, hpq, hm⟩
      cases p with
      | nil =>
        exact Or.inl hm
      | cons d p =>
        simp only [List.cons_append, List.cons.injEq] at hpq
        rcases hpq with ⟨hdc, hrest⟩
        exact Or.inr ⟨p, q, hrest, deriv_complete r c p (hdc ▸ hm)⟩

theorem rsearch_iff (r : RE) (s : List Char) :
    rsearch r s = true ↔ RSearches r s := by
  induction s with
  | nil =>
    simp only [rsearch, nullable_iff]
    constructor
    · intro h
      exact ⟨[], [], [], rfl, h⟩
    · rintro ⟨pre, mid, post, hs, hm⟩
      rcases List.append_eq_nil.mp hs with ⟨hp, hrest⟩
      rcases List.append_eq_nil.mp hp with ⟨hp0, hm0⟩
      subst hm0
      exact hm
  | cons c rest ih =>
    simp only [rsearch, Bool.or_eq_true, matchesPre_iff, ih]
    constructor
    · rintro (⟨p, q, hpq, hm⟩ | ⟨pre, mid, post, hs, hm⟩)
      · exact ⟨[], p, q, by simpa using hpq, hm⟩
      · subst hs
        exact ⟨c :: pre, mid, post, rfl, hm⟩
    · rintro ⟨pre, mid, post, hs, hm⟩
      cases pre with
      | nil =>
        simp only [List.nil_append] at hs
        exact Or.inl ⟨mid, post, hs, hm⟩
      | cons d pre =>
        simp only [List.cons_append, List.cons.injEq] at hs
        rcases hs with ⟨hdc, hrest⟩
        subst hdc
        exact Or.inr ⟨pre, mid, post, hrest, hm⟩

/-! ### Pattern construction helpers -/

/-- Literal string regex. -/
def lit (s : String) : RE :=
  s.data.foldr (fun c r => .cat (.cls (fun d => d == c)) r) .eps

/-- Ordered alternation of a list of regexes (never used empty). -/
def alts : List RE → RE
  | [] => REfail
  | [r] => r
  | r :: rest => .alt r (alts rest)

/-- Sequencing of a list of regexes. -/
def seqRE (l : List RE) : RE := l.foldr .cat .eps

/-- Class for `.` in the source patterns (any character except newline). -/
def anyc : RE := .cls (fun c => c != '\n')

/-- Regex for `(.*)` and `(.*?)`: for match existence, greediness is irrelevant. -/
def anyStar : RE := .star anyc

/-- Class `\d`. -/
def digitC : RE := .cls Char.isDigit

/-- Class `\s`. -/
def wsC : RE := .cls Char.isWhitespace

/-- Optional `r?`. -/
def reOpt (r : RE) : RE := .alt .eps r

/-- Repetition `r+`. -/
def rePlus (r : RE) : RE := .cat r (.star r)

/-! ## Configuration tables (`config.py`) -/

/-- Coerce a list of string literals to the `List Char` representation. -/
def strs (l : List String) : List (List Char) := l.map String.data

/-- Table `config.FUNCTIONAL_KEYWORDS`. -/
def FUNCTIONAL_KEYWORDS : List (List Char) := strs [
  "create", "add", "delete", "remove", "update", "edit", "view", "display",
  "show", "list", "search", "filter", "sort", "calculate", "generate",
  "send", "receive", "upload", "download", "save", "load", "export",
  "import", "register", "login", "logout", "authenticate", "authorize",
  "submit", "cancel", "confirm", "select", "choose", "enter", "input",
  "output", "print", "scan", "notify", "alert", "track", "monitor",
  "process", "execute", "run", "start", "stop", "pause", "resume",
  "enable", "disable", "activate", "deactivate", "configure", "set"]

/-- Table `config.NON_FUNCTIONAL_KEYWORDS`. -/
def NON_FUNCTIONAL_KEYWORDS : List (List Char) := strs [
  "secure", "security", "fast", "performance", "scalable", "scalability",
  "reliable", "reliability", "available", "availability", "usable",
  "usability", "maintainable", "maintainability", "portable", "portability",
  "efficient", "efficiency", "responsive", "response time", "load time",
  "speed", "quick", "quickly", "stable", "stability", "robust",
  "robustness", "compatible", "compatibility", "accessible", "accessibility",
  "user-friendly", "intuitive", "easy to use", "simple", "within",
  "milliseconds", "seconds", "minutes", "concurrent", "users",
  "throughput", "latency", "uptime", "downtime", "backup", "recovery"]

/-- Table `config.NFR_CATEGORIES`, in insertion order of the Python dict. -/
def NFR_CATEGORIES : List (List Char × List (List Char)) := [
  ("performance".data, strs ["fast", "quick", "speed", "load", "response time",
      "milliseconds", "seconds", "performance"]),
  ("security".data, strs ["secure", "security", "encrypt", "authentication",
      "authorization", "protected"]),
  ("usability".data, strs ["user-friendly", "easy", "simple", "intuitive",
      "usable", "usability"]),
  ("reliability".data, strs ["reliable", "available", "uptime", "stable", "robust"]),
  ("scalability".data, strs ["scalable", "concurrent", "users", "throughput"]),
  ("maintainability".data, strs ["maintainable", "modular", "documented"]),
  ("portability".data, strs ["portable", "compatible", "cross-platform"])]

/-- Table `config.REQUIREMENT_INDICATORS`. -/
def REQUIREMENT_INDICATORS : List (List Char) := strs [
  "should", "must", "shall", "will", "can", "need to", "able to",
  "want to", "would like to", "require", "required"]

/-- Table `config.CUSTOM_STOPWORDS` (declared in the source; the preprocessor
itself uses the NLTK set, so this list is carried for completeness). -/
def CUSTOM_STOPWORDS : List (List Char) := strs [
  "i", "me", "my", "myself", "we", "our", "ours", "ourselves"]

/-- Table `config.USER_STORY_PATTERNS`, each Python regex embedded as an `RE`
(capture groups only bracket subexpressions, so they are dropped for the
boolean `re.search` used in detection):
1. `as a (.*?), i want (.*?) so that (.*)`
2. `as a (.*?), i want (.*)`
3. `as an? (.*?), i (want|need|would like) (.*)`
4. `the (system|application|user|admin) (should|must|shall|will|can) (.*)`
5. `(system|application) (should|must|shall|will) (.*)` -/
def USER_STORY_PATTERNS : List RE := [
  seqRE [lit "as a ", anyStar, lit ", i want ", anyStar, lit " so that ", anyStar],
  seqRE [lit "as a ", anyStar, lit ", i want ", anyStar],
  seqRE [lit "as a", reOpt (lit "n"), lit " ", anyStar, lit ", i ",
    alts [lit "want", lit "need", lit "would like"], lit " ", anyStar],
  seqRE [lit "the ", alts [lit "system", lit "application", lit "user", lit "admin"],
    lit " ", alts [lit "should", lit "must", lit "shall", lit "will", lit "can"],
    lit " ", anyStar],
  seqRE [alts [lit "system", lit "application"], lit " ",
    alts [lit "should", lit "must", lit "shall", lit "will"], lit " ", anyStar]]

/-! ## Text preprocessor (`text_preprocessor.py`) -/

/-- The external linguistic primitives (NLTK), per the black-box
contract of the design: sentence segmentation, word tokenization,
POS tagging, lemmatization and the base English stopword set. -/
structure NLP where
  sent_tokenize : List Char → List (List Char)
  word_tokenize : List Char → List (List Char)
  pos_tag : List (List Char) → List (List Char × List Char)
  lemmatize_word : List Char → List Char
  base_stopwords : List (List Char)

/-- Model of `TextPreprocessor.clean_text`: lowercase, replace characters outside
word/whitespace/period/comma/hyphen by a space, collapse whitespace runs
to one space, trim. -/
def clean_text (text : List Char) : List Char :=
  stripStr (collapseWS ((lowerStr text).map (fun c => if keptChar c then c else ' ')))

/-- The stopword-set initialization of `TextPreprocessor.__init__`:
every single-word form of a configured requirement indicator is removed
from the stopword set. -/
def initStopWords (raw : List (List Char)) : List (List Char) :=
  REQUIREMENT_INDICATORS.foldl
    (fun sw ind => (splitWS ind).foldl (fun sw2 w => sw2.filter (fun x => x ≠ w)) sw)
    raw

/-- One sentence with its derived linguistic artifacts
(the `sentence_data` dict of `preprocess_full_pipeline`). -/
structure SentenceData where
  sentence : List Char
  tokens : List (List Char)
  pos_tags : List (List Char × List Char)
  verbs : List (List Char)
  nouns : List (List Char)
  filtered_tokens : List (List Char)
  lemmatized_tokens : List (List Char)
deriving DecidableEq

/-- The full result dict of `preprocess_full_pipeline`. -/
structure PreprocessResult where
  original_text : List Char
  cleaned_text : List Char
  sentences : List (List Char)
  processed_sentences : List SentenceData
deriving DecidableEq

/-- The per-sentence body of `preprocess_full_pipeline`'s loop:
tokenize, POS-tag before stopword removal, extract verbs (tags with
leading `VB`) and nouns (tags with leading `NN`), remove stopwords,
lemmatize. -/
def processSentence (nlp : NLP) (sw : List (List Char)) (sentence : List Char) :
    SentenceData :=
  let tokens := nlp.word_tokenize sentence
  let pos_tags := nlp.pos_tag tokens
  let verbs := (pos_tags.filter (fun p => hasPre "VB".data p.2)).map (fun p => p.1)
  let nouns := (pos_tags.filter (fun p => hasPre "NN".data p.2)).map (fun p => p.1)
  let filtered_tokens := tokens.filter (fun t => ¬ (lowerStr t) ∈ sw)
  let lemmatized_tokens := filtered_tokens.map nlp.lemmatize_word
  { sentence := sentence, tokens := tokens, pos_tags := pos_tags,
    verbs := verbs, nouns := nouns, filtered_tokens := filtered_tokens,
    lemmatized_tokens := lemmatized_tokens }

/-- Model of `TextPreprocessor.preprocess_full_pipeline`, with the adjusted
stopword set passed explicitly (it is fixed at `__init__`). -/
def preprocess_with (nlp : NLP) (sw : List (List Char)) (text : List Char) :
    PreprocessResult :=
  let cleaned := clean_text text
  let sentences := nlp.sent_tokenize cleaned
  { original_text := text, cleaned_text := cleaned, sentences := sentences,
    processed_sentences := sentences.map (processSentence nlp sw) }

/-- Model of `preprocess_full_pipeline` as called on a freshly initialized
`TextPreprocessor`. -/
def preprocess_full_pipeline (nlp : NLP) (text : List Char) : PreprocessResult :=
  preprocess_with nlp (initStopWords nlp.base_stopwords) text

/-! ## Requirement extractor (`requirement_extractor.py`) -/

/-- Model of `RequirementExtractor.is_requirement_sentence`: the lowercased
sentence contains a requirement-indicator substring, or matches one of
the user-story patterns. -/
def is_requirement_sentence (sentence : List Char) : Bool :=
  let sl := lowerStr sentence
  REQUIREMENT_INDICATORS.any (fun ind => containsSub ind sl)
  || USER_STORY_PATTERNS.any (fun p => rsearch p sl)

/-- Capture scan for extraction pattern 1's trailing part
`(.*?)(?:\.|so that|$)`: the leftmost-shortest capture runs up to the
first position where `.` or the literal `so that` matches, or where `$`
matches (end of string, or just before a trailing newline).  The
capture's `.` cannot cross a newline, so an interior newline before any
terminator makes the whole attempt at this start position fail. -/
def takeUntilTerm1 : List Char → Option (List Char)
  | [] => some []
  | c :: rest =>
    if c = '.' then some []
    else if hasPre "so that".data (c :: rest) then some []
    else if c = '\n' then (if rest.isEmpty then some [] else none)
    else Option.map (fun g => c :: g) (takeUntilTerm1 rest)

/-- Capture scan for `(.*?)(?:\.|$)` (patterns 2 and 3), with the same
`$` and newline treatment. -/
def takeUntilDot : List Char → Option (List Char)
  | [] => some []
  | c :: rest =>
    if c = '.' then some []
    else if c = '\n' then (if rest.isEmpty then some [] else none)
    else Option.map (fun g => c :: g) (takeUntilDot rest)

/-- The words of the alternation `(?:want|need|would like)`. -/
def wantWords : List (List Char) := strs ["want", "need", "would like"]

/-- The words of `(?:system|application)`. -/
def sysWords : List (List Char) := strs ["system", "application"]

/-- The words of `(?:should|must|shall|will)`. -/
def modalWords : List (List Char) := strs ["should", "must", "shall", "will"]

/-- Attempt extraction pattern 1
`i (?:want|need|would like) (?:to )?(.*?)(?:\.|so that|$)` at the start
of `s`.  The alternation words are mutually exclusive as prefixes, and
the greedy `(?:to )?` may be committed: when `to ` is present and the
capture scan after it fails (interior newline), the backtracked scan
without `to ` reaches the same newline and fails too. -/
def tryP1At (s : List Char) : Option (List Char) :=
  if hasPre "i ".data s then
    let s1 := s.drop 2
    match wantWords.findSome?
        (fun w => if hasPre (w ++ [' ']) s1 then some (s1.drop (w.length + 1)) else none) with
    | some s2 =>
      let s3 := if hasPre "to ".data s2 then s2.drop 3 else s2
      takeUntilTerm1 s3
    | none => none
  else none

/-- Attempt extraction pattern 2
`(?:system|application) (?:should|must|shall|will) (.*?)(?:\.|$)`
at the start of `s`. -/
def tryP2At (s : List Char) : Option (List Char) :=
  match sysWords.findSome?
      (fun w => if hasPre (w ++ [' ']) s then some (s.drop (w.length + 1)) else none) with
  | some s1 =>
    match modalWords.findSome?
        (fun m => if hasPre (m ++ [' ']) s1 then some (s1.drop (m.length + 1)) else none) with
    | some s2 => takeUntilDot s2
    | none => none
  | none => none

/-- Attempt extraction pattern 3
`(?:should|must|shall|will) (.*?)(?:\.|$)` at the start of `s`. -/
def tryP3At (s : List Char) : Option (List Char) :=
  match modalWords.findSome?
      (fun m => if hasPre (m ++ [' ']) s then some (s.drop (m.length + 1)) else none) with
  | some s1 => takeUntilDot s1
  | none => none

/-- Leftmost `re.search` scan: try the pattern at every start position,
earliest success wins. -/
def scanLeft (tryAt : List Char → Option (List Char)) : List Char → Option (List Char)
  | [] => tryAt []
  | c :: rest =>
    match tryAt (c :: rest) with
    | some g => some g
    | none => scanLeft tryAt rest

/-- Model of `RequirementExtractor.extract_requirement_from_user_story`: the
three capturing patterns tried in priority order on the lowercased
sentence, first match wins; otherwise the whole stripped sentence. -/
def extract_requirement_from_user_story (sentence : List Char) : List Char :=
  let sl := lowerStr sentence
  match scanLeft tryP1At sl with
  | some g => stripStr g
  | none =>
    match scanLeft tryP2At sl with
    | some g => stripStr g
    | none =>
      match scanLeft tryP3At sl with
      | some g => stripStr g
      | none => stripStr sentence

/-- One extracted requirement record. -/
structure ExtractedRequirement where
  original_sentence : List Char
  extracted_requirement : List Char
  tokens : List (List Char)
  verbs : List (List Char)
  nouns : List (List Char)
  lemmatized_tokens : List (List Char)
deriving DecidableEq

/-- The accumulation loop of `extract_requirements_from_text`: keep
each sentence passing detection whose extracted phrase is nonempty (the
Python `if requirement:` truthiness test), in order, by appending. -/
def extractLoop (processed : List SentenceData) : List ExtractedRequirement :=
  processed.foldl
    (fun reqs sd =>
      if is_requirement_sentence sd.sentence then
        let requirement := extract_requirement_from_user_story sd.sentence
        if requirement.isEmpty then reqs
        else reqs ++ [{ original_sentence := sd.sentence,
                        extracted_requirement := requirement,
                        tokens := sd.tokens, verbs := sd.verbs,
                        nouns := sd.nouns,
                        lemmatized_tokens := sd.lemmatized_tokens }]
      else reqs)
    []

/-- Model of `RequirementExtractor.extract_requirements_from_text` with the
preprocessor's stopword state explicit. -/
def extract_with (nlp : NLP) (sw : List (List Char)) (text : List Char) :
    List ExtractedRequirement :=
  extractLoop (preprocess_with nlp sw text).processed_sentences

/-- Model of `RequirementExtractor.extract_requirements_from_text` on a freshly
initialized extractor. -/
def extract_requirements_from_text (nlp : NLP) (text : List Char) :
    List ExtractedRequirement :=
  extract_with nlp (initStopWords nlp.base_stopwords) text

/-! ## Requirement classifier (`requirement_classifier.py`) -/

/-- Model of `RequirementClassifier.calculate_keyword_score`: the number of
configured keywords occurring (case-insensitively) as substrings of the
text.  The Python set holds the lowercased config keywords, which are
pairwise distinct, so iterating the config list counts the same. -/
def calculate_keyword_score (text : List Char) (keywords : List (List Char)) : Nat :=
  let tl := lowerStr text
  keywords.countP (fun kw => containsSub kw tl)

/-- The five regexes of `has_performance_indicators`:
1. `\d+\s*(millisecond|second|minute|ms|s|min)`
2. `within\s+\d+`
3. `(fast|quick|speed|performance|load time|response time)`
4. `concurrent\s+users?`
5. `\d+%\s*(uptime|availability)` -/
def performance_patterns : List RE := [
  seqRE [rePlus digitC, .star wsC,
    alts [lit "millisecond", lit "second", lit "minute", lit "ms", lit "s", lit "min"]],
  seqRE [lit "within", rePlus wsC, rePlus digitC],
  alts [lit "fast", lit "quick", lit "speed", lit "performance",
    lit "load time", lit "response time"],
  seqRE [lit "concurrent", rePlus wsC, lit "user", reOpt (lit "s")],
  seqRE [rePlus digitC, lit "%", .star wsC, alts [lit "uptime", lit "availability"]]]

/-- Model of `RequirementClassifier.has_performance_indicators`. -/
def has_performance_indicators (text : List Char) : Bool :=
  let tl := lowerStr text
  performance_patterns.any (fun p => rsearch p tl)

/-- The fixed word list of `has_quality_attributes`. -/
def quality_words : List (List Char) := strs [
  "secure", "security", "reliable", "available", "scalable",
  "maintainable", "usable", "portable", "efficient", "stable",
  "robust", "user-friendly", "intuitive", "compatible"]

/-- Model of `RequirementClassifier.has_quality_attributes`. -/
def has_quality_attributes (text : List Char) : Bool :=
  let tl := lowerStr text
  quality_words.any (fun w => containsSub w tl)

/-- Classification label. -/
inductive Label where
  | FR : Label
  | NFR : Label
deriving DecidableEq

/-- Python `round(q, 2)`, modelled as exact rational rounding to a
hundredth.  (Python rounds the IEEE double nearest to `q`, half to
even; the properties proved below are insensitive to the rounding
direction at half-hundredths and to the representation error, and the
one exactly-tested value 1/2 is a fixed point of both functions.) -/
def round2 (q : ℚ) : ℚ := (round (100 * q) : ℤ) / 100

/-- Model of `RequirementClassifier.identify_nfr_category`: keep the categories
scoring positively, in table order, and return the first one attaining
the maximal score (Python `max(d, key=d.get)` keeps the earliest
maximum of the insertion-ordered dict); if none scores, `general`. -/
def identify_nfr_category (text : List Char) : List Char :=
  let tl := lowerStr text
  let category_scores :=
    (NFR_CATEGORIES.map (fun p => (p.1, p.2.countP (fun kw => containsSub kw tl)))).filter
      (fun q => 0 < q.2)
  match category_scores with
  | [] => "general".data
  | x :: xs => (xs.foldl (fun b y => if b.2 < y.2 then y else b) x).1

/-- One classification result record. -/
structure ClassificationResult where
  original_sentence : List Char
  requirement : List Char
  classification : Label
  confidence : ℚ
  fr_score : Nat
  nfr_score : Nat
  nfr_category : Option (List Char)
  verbs : List (List Char)
  nouns : List (List Char)
deriving DecidableEq

/-- Model of `RequirementClassifier.classify_requirement`: keyword scores, NFR
bonuses (+3 performance, +2 quality), strict comparison with tie
defaulting to FR at fixed confidence 0.5, confidence
`winner / (fr + nfr + 1)` rounded to 2 decimals, and an NFR category
only for NFR labels.  The keyword sets `self.functional_keywords` and
`self.nfr_keywords` (fixed at `__init__`) are explicit arguments. -/
def classify_requirement_with (fk nk : List (List Char)) (rd : ExtractedRequirement) :
    ClassificationResult :=
  let requirement := rd.extracted_requirement
  let fr_score := calculate_keyword_score requirement fk
  let base := calculate_keyword_score requirement nk
  let nfr_score := base + (if has_performance_indicators requirement then 3 else 0)
      + (if has_quality_attributes requirement then 2 else 0)
  let classification := if fr_score < nfr_score then Label.NFR else Label.FR
  let confidence : ℚ :=
    if fr_score < nfr_score then (nfr_score : ℚ) / ((fr_score : ℚ) + (nfr_score : ℚ) + 1)
    else if nfr_score < fr_score then (fr_score : ℚ) / ((fr_score : ℚ) + (nfr_score : ℚ) + 1)
    else 1 / 2
  let nfr_category :=
    if classification = Label.NFR then some (identify_nfr_category requirement) else none
  { original_sentence := rd.original_sentence, requirement := requirement,
    classification := classification, confidence := round2 confidence,
    fr_score := fr_score, nfr_score := nfr_score, nfr_category := nfr_category,
    verbs := rd.verbs, nouns := rd.nouns }

/-- Model of `classify_requirement` on a freshly initialized classifier, whose
`__init__` stores the lowercased configured keyword sets. -/
def classify_requirement (rd : ExtractedRequirement) : ClassificationResult :=
  classify_requirement_with (FUNCTIONAL_KEYWORDS.map lowerStr)
    (NON_FUNCTIONAL_KEYWORDS.map lowerStr) rd

/-- The aggregate report of `classify_text`. -/
structure ClassificationReport where
  functional_requirements : List ClassificationResult
  non_functional_requirements : List ClassificationResult
  total_requirements : Nat
  fr_count : Nat
  nfr_count : Nat
deriving DecidableEq

/-- The partition loop of `classify_text`: classify each requirement in
order and append it to the FR or NFR list according to its label. -/
def partitionLoop (fk nk : List (List Char)) (requirements : List ExtractedRequirement) :
    List ClassificationResult × List ClassificationResult :=
  requirements.foldl
    (fun (acc : List ClassificationResult × List ClassificationResult) rd =>
      let c := classify_requirement_with fk nk rd
      if c.classification = Label.FR then (acc.1 ++ [c], acc.2)
      else (acc.1, acc.2 ++ [c]))
    ([], [])

/-- Model of `RequirementClassifier.classify_text` with the instance attributes
(keyword sets and adjusted stopword set) explicit: extract, classify
each requirement in order, partition into the FR and NFR lists, and
report the counts. -/
def classify_text_with (fk nk sw : List (List Char)) (nlp : NLP) (text : List Char) :
    ClassificationReport :=
  let requirements := extract_with nlp sw text
  let pair := partitionLoop fk nk requirements
  { functional_requirements := pair.1, non_functional_requirements := pair.2,
    total_requirements := requirements.length,
    fr_count := pair.1.length, nfr_count := pair.2.length }

/-- Model of `classify_text` on a freshly initialized `RequirementClassifier`. -/
def classify_text (nlp : NLP) (text : List Char) : ClassificationReport :=
  classify_text_with (FUNCTIONAL_KEYWORDS.map lowerStr)
    (NON_FUNCTIONAL_KEYWORDS.map lowerStr) (initStopWords nlp.base_stopwords) nlp text

/-! ## Stateful embedding of the object state

The only attributes ever assigned by the three classes are the
classifier's two keyword sets and the preprocessor's stopword set, all
set in `__init__` and only read afterwards.  Each public operation is
embedded as a state-passing function returning the (unchanged, since no
method assigns to `self` after `__init__`) state, so that purity of
`classify_text` across repeated calls is a provable statement rather
than a modelling assumption. -/

/-- The mutable object state of the pipeline instances. -/
structure SysState where
  functional_keywords : List (List Char)
  nfr_keywords : List (List Char)
  stop_words : List (List Char)
deriving DecidableEq

/-- The state established by the `__init__` chain. -/
def initState (nlp : NLP) : SysState :=
  { functional_keywords := FUNCTIONAL_KEYWORDS.map lowerStr,
    nfr_keywords := NON_FUNCTIONAL_KEYWORDS.map lowerStr,
    stop_words := initStopWords nlp.base_stopwords }

/-- Stateful `preprocess_full_pipeline` (reads `self.stop_words`,
assigns nothing). -/
def preprocessS (st : SysState) (nlp : NLP) (text : List Char) :
    PreprocessResult × SysState :=
  (preprocess_with nlp st.stop_words text, st)

/-- Stateful `extract_requirements_from_text` (calls the preprocessor,
assigns nothing itself). -/
def extractS (st : SysState) (nlp : NLP) (text : List Char) :
    List ExtractedRequirement × SysState :=
  let pre := preprocessS st nlp text
  (extractLoop pre.1.processed_sentences, pre.2)

/-- Stateful `classify_requirement` (reads the keyword sets, assigns
nothing). -/
def classify_requirementS (st : SysState) (rd : ExtractedRequirement) :
    ClassificationResult × SysState :=
  (classify_requirement_with st.functional_keywords st.nfr_keywords rd, st)

/-- Stateful `classify_text`, threading the state through the extractor
call and through each `classify_requirement` call of its loop. -/
def classify_textS (st : SysState) (nlp : NLP) (text : List Char) :
    ClassificationReport × SysState :=
  let ex := extractS st nlp text
  let requirements := ex.1
  let step := fun (acc : (List ClassificationResult × List ClassificationResult) × SysState)
      (rd : ExtractedRequirement) =>
    let cs := classify_requirementS acc.2 rd
    (if cs.1.classification = Label.FR then ((acc.1.1 ++ [cs.1], acc.1.2), cs.2)
     else ((acc.1.1, acc.1.2 ++ [cs.1]), cs.2))
  let out := requirements.foldl step (([], []), ex.2)
  ({ functional_requirements := out.1.1, non_functional_requirements := out.1.2,
     total_requirements := requirements.length,
     fr_count := out.1.1.length, nfr_count := out.1.2.length }, out.2)

/-! ## Helper lemmas -/

theorem hasPre_iff (p s : List Char) : hasPre p s = true ↔ ∃ t, p ++ t = s := by
  induction p generalizing s with
  | nil =>
    simp only [hasPre, true_iff, List.nil_append]
    exact ⟨s, rfl⟩
  | cons c p ih =>
    cases s with
    | nil =>
      simp only [hasPre, Bool.false_eq_true, false_iff]
      rintro ⟨t, ht⟩
      cases ht
    | cons d s =>
      simp only [hasPre, Bool.and_eq_true, beq_iff_eq, ih]
      constructor
      · rintro ⟨hcd, t, ht⟩
        subst hcd
        exact ⟨t, by rw [List.cons_append, ht]⟩
      · rintro ⟨t, ht⟩
        simp only [List.cons_append, List.cons.injEq] at ht
        exact ⟨ht.1, t, ht.2⟩

theorem containsSub_iff (n h : List Char) : containsSub n h = true ↔ SubstrOf n h := by
  induction h with
  | nil =>
    simp only [containsSub, hasPre_iff, SubstrOf]
    constructor
    · rintro ⟨t, ht⟩
      exact ⟨[], t, ht⟩
    · rintro ⟨p, q, hpq⟩
      rcases List.append_eq_nil.mp hpq with ⟨hp, hq⟩
      rcases List.append_eq_nil.mp hp with ⟨hp0, hn0⟩
      subst hp0
      subst hn0
      exact ⟨q, hpq⟩
  | cons c rest ih =>
    simp only [containsSub, Bool.or_eq_true, hasPre_iff, ih, SubstrOf]
    constructor
    · rintro (⟨t, ht⟩ | ⟨p, q, hpq⟩)
      · exact ⟨[], t, by simpa using ht⟩
      · subst hpq
        exact ⟨c :: p, q, rfl⟩
    · rintro ⟨p, q, hpq⟩
      cases p with
      | nil =>
        exact Or.inl ⟨q, by simpa using hpq⟩
      | cons d p =>
        simp only [List.cons_append, List.cons.injEq] at hpq
        exact Or.inr ⟨p, q, by rw [hpq.2]⟩

theorem char_toNat_ofNat (n : Nat) (h : n.isValidChar) : (Char.ofNat n).toNat = n := by
  simp only [Char.ofNat, dif_pos h]
  rfl

theorem pyLower_idem (c : Char) : pyLower (pyLower c) = pyLower c := by
  unfold pyLower
  split_ifs with h1 h2
  · exfalso
    have hv : (c.toNat + 32).isValidChar := by
      left
      omega
    rw [char_toNat_ofNat _ hv] at h2
    omega
  · rfl
  · rfl

theorem pyLower_ws {c : Char} (h : c.isWhitespace = true) : pyLower c = c := by
  simp only [Char.isWhitespace, Bool.or_eq_true, decide_eq_true_eq] at h
  rcases h with ((h0 | h0) | h0) | h0 <;> subst h0 <;> rfl

theorem map_fix {α : Type} {f : α → α} {l : List α} (h : ∀ x ∈ l, f x = x) :
    l.map f = l := by
  induction l with
  | nil => rfl
  | cons a l ih =>
    simp only [List.map_cons, h a (by simp), ih (fun x hx => h x (by simp [hx])),
      List.cons.injEq, and_self]

/-- Characters surviving `clean_text` are spaces or lower-cased input
characters; in particular they are all fixed by `pyLower`. -/
theorem clean_text_chars (t : List Char) :
    ∀ c ∈ clean_text t, pyLower c = c := by
  intro c hc
  unfold clean_text stripStr at hc
  rw [List.mem_reverse] at hc
  replace hc := (List.dropWhile_sublist _).mem hc
  rw [List.mem_reverse] at hc
  replace hc := (List.dropWhile_sublist _).mem hc
  have hcol : ∀ (l : List Char) (b : Bool), c ∈ collapseWSAux b l → c ∈ l ∨ c = ' ' := by
    intro l
    induction l with
    | nil => simp [collapseWSAux]
    | cons d rest ih =>
      intro b hmem
      rw [collapseWSAux] at hmem
      by_cases hd : d.isWhitespace = true
      · rw [if_pos hd] at hmem
        by_cases hb : b = true
        · rw [if_pos hb] at hmem
          rcases ih true hmem with h1 | h1
          · exact Or.inl (List.mem_cons_of_mem d h1)
          · exact Or.inr h1
        · rw [if_neg hb] at hmem
          rcases List.mem_cons.mp hmem with h0 | h0
          · exact Or.inr h0
          · rcases ih true h0 with h1 | h1
            · exact Or.inl (List.mem_cons_of_mem d h1)
            · exact Or.inr h1
      · rw [if_neg hd] at hmem
        rcases List.mem_cons.mp hmem with h0 | h0
        · exact Or.inl (h0 ▸ List.mem_cons_self _ _)
        · rcases ih false h0 with h1 | h1
          · exact Or.inl (List.mem_cons_of_mem d h1)
          · exact Or.inr h1
  rcases hcol _ false hc with hmem | hsp
  · rcases List.mem_map.mp hmem with ⟨d, hd, hde⟩
    by_cases hk : keptChar d = true
    · rw [if_pos hk] at hde
      rcases List.mem_map.mp (hde ▸ hd : c ∈ lowerStr t) with ⟨e, _, hce⟩
      rw [← hce]
      exact pyLower_idem e
    · rw [if_neg hk] at hde
      rw [← hde]
      rfl
  · rw [hsp]
    rfl

/-- The `clean_text` output is already lower-case. -/
theorem lowerStr_clean_text (t : List Char) :
    lowerStr (clean_text t) = clean_text t :=
  map_fix (clean_text_chars t)

/-- Lower-casing config keyword lists is the identity (they are stored
lower-cased by `__init__`, but are already lower-case in `config.py`). -/
theorem lower_functional_keywords :
    FUNCTIONAL_KEYWORDS.map lowerStr = FUNCTIONAL_KEYWORDS := by decide

theorem lower_nfr_keywords :
    NON_FUNCTIONAL_KEYWORDS.map lowerStr = NON_FUNCTIONAL_KEYWORDS := by decide

/-- Analysis view of one iteration of `extractLoop`: the record the
iteration appends for a sentence, if any. -/
def extractStep (sd : SentenceData) : Option ExtractedRequirement :=
  if is_requirement_sentence sd.sentence then
    let requirement := extract_requirement_from_user_story sd.sentence
    if requirement.isEmpty then none
    else some { original_sentence := sd.sentence,
                extracted_requirement := requirement,
                tokens := sd.tokens, verbs := sd.verbs, nouns := sd.nouns,
                lemmatized_tokens := sd.lemmatized_tokens }
  else none

theorem extractLoop_acc (l : List SentenceData) (acc : List ExtractedRequirement) :
    l.foldl
      (fun reqs sd =>
        if is_requirement_sentence sd.sentence then
          let requirement := extract_requirement_from_user_story sd.sentence
          if requirement.isEmpty then reqs
          else reqs ++ [{ original_sentence := sd.sentence,
                          extracted_requirement := requirement,
                          tokens := sd.tokens, verbs := sd.verbs,
                          nouns := sd.nouns,
                          lemmatized_tokens := sd.lemmatized_tokens }]
        else reqs)
      acc = acc ++ l.filterMap extractStep := by
  induction l generalizing acc with
  | nil => simp
  | cons sd l ih =>
    simp only [List.foldl_cons, List.filterMap_cons]
    by_cases h1 : is_requirement_sentence sd.sentence = true
    · by_cases h2 : (extract_requirement_from_user_story sd.sentence).isEmpty = true
      · rw [if_pos h1, if_pos h2, ih, extractStep, if_pos h1]
        simp only [h2, if_pos]
      · rw [if_pos h1, if_neg h2, ih, extractStep, if_pos h1]
        simp [h2]
    · rw [if_neg h1, ih, extractStep, if_neg h1]

/-- Lemma: `extractLoop` keeps exactly the detected sentences with nonempty
extracted phrase, one record each, in order. -/
theorem extractLoop_eq (l : List SentenceData) :
    extractLoop l = l.filterMap extractStep := by
  unfold extractLoop
  exact extractLoop_acc l []

theorem partitionLoop_acc (fk nk : List (List Char)) (l : List ExtractedRequirement)
    (acc : List ClassificationResult × List ClassificationResult) :
    l.foldl
      (fun (acc : List ClassificationResult × List ClassificationResult) rd =>
        let c := classify_requirement_with fk nk rd
        if c.classification = Label.FR then (acc.1 ++ [c], acc.2)
        else (acc.1, acc.2 ++ [c]))
      acc =
    (acc.1 ++ (l.map (classify_requirement_with fk nk)).filter
        (fun c => c.classification = Label.FR),
     acc.2 ++ (l.map (classify_requirement_with fk nk)).filter
        (fun c => ¬ c.classification = Label.FR)) := by
  induction l generalizing acc with
  | nil => simp
  | cons rd l ih =>
    simp only [List.foldl_cons, List.map_cons, List.filter_cons]
    by_cases h : (classify_requirement_with fk nk rd).classification = Label.FR
    · rw [if_pos h, ih]
      simp [h]
    · rw [if_neg h, ih]
      simp [h]

theorem partitionLoop_eq (fk nk : List (List Char)) (l : List ExtractedRequirement) :
    partitionLoop fk nk l =
    ((l.map (classify_requirement_with fk nk)).filter
        (fun c => c.classification = Label.FR),
     (l.map (classify_requirement_with fk nk)).filter
        (fun c => ¬ c.classification = Label.FR)) := by
  unfold partitionLoop
  rw [partitionLoop_acc]
  simp

theorem length_filter_split {α : Type} (p : α → Prop) [DecidablePred p] (l : List α) :
    l.length = (l.filter (fun a => p a)).length +
      (l.filter (fun a => ¬ p a)).length := by
  induction l with
  | nil => rfl
  | cons a l ih =>
    by_cases h : p a <;> simp [List.filter_cons, h, ih] <;> omega

/-- The maximum-selection fold of `identify_nfr_category` (Python
`max(d, key=d.get)`): replace the candidate only on a strictly greater
score, so the first maximal element wins. -/
def pickMax {α : Type} (x : α × Nat) (l : List (α × Nat)) : α × Nat :=
  l.foldl (fun b y => if b.2 < y.2 then y else b) x

/-- The selected element weakly dominates the starting candidate. -/
theorem le_pickMax {α : Type} (x : α × Nat) (l : List (α × Nat)) :
    x.2 ≤ (pickMax x l).2 := by
  induction l generalizing x with
  | nil => exact le_refl _
  | cons y ys ih =>
    have hfold : pickMax x (y :: ys) = pickMax (if x.2 < y.2 then y else x) ys := rfl
    rw [hfold]
    by_cases hxy : x.2 < y.2
    · rw [if_pos hxy]
      exact le_of_lt (lt_of_lt_of_le hxy (ih y))
    · rw [if_neg hxy]
      exact ih x

/-- Lemma: `pickMax` returns an element of the list which strictly dominates
everything before it and weakly dominates everything after it. -/
theorem pickMax_spec {α : Type} (x : α × Nat) (l : List (α × Nat)) :
    ∃ l1 l2, x :: l = l1 ++ (pickMax x l) :: l2 ∧
      (∀ y ∈ l1, y.2 < (pickMax x l).2) ∧
      (∀ y ∈ l2, y.2 ≤ (pickMax x l).2) := by
  induction l generalizing x with
  | nil =>
    exact ⟨[], [], rfl, by simp, by simp⟩
  | cons y ys ih =>
    have hfold : pickMax x (y :: ys) = pickMax (if x.2 < y.2 then y else x) ys := rfl
    by_cases hxy : x.2 < y.2
    · rw [hfold, if_pos hxy]
      rcases ih y with ⟨m1, m2, hsplit, hlt, hle⟩
      refine ⟨x :: m1, m2, ?_, ?_, hle⟩
      · rw [List.cons_append, ← hsplit]
      · intro z hz
        rcases List.mem_cons.mp hz with hzx | hzm
        · rw [hzx]
          exact lt_of_lt_of_le hxy (le_pickMax y ys)
        · exact hlt z hzm
    · rw [hfold, if_neg hxy]
      rcases ih x with ⟨m1, m2, hsplit, hlt, hle⟩
      cases m1 with
      | nil =>
        simp only [List.nil_append, List.cons.injEq] at hsplit
        refine ⟨[], y :: m2, ?_, by simp, ?_⟩
        · rw [List.nil_append, ← hsplit.1, hsplit.2]
        · intro z hz
          rcases List.mem_cons.mp hz with hzy | hzm
          · rw [hzy, ← hsplit.1]
            omega
          · exact hle z hzm
      | cons c m1 =>
        simp only [List.cons_append, List.cons.injEq] at hsplit
        have hxr : x.2 < (pickMax x ys).2 := by
          have := hlt c (List.mem_cons_self c m1)
          rw [← hsplit.1] at this
          exact this
        refine ⟨x :: y :: m1, m2, ?_, ?_, hle⟩
        · rw [List.cons_append, List.cons_append, ← hsplit.2, hsplit.1]
        · intro z hz
          rcases List.mem_cons.mp hz with hzx | hzm
          · rw [hzx]
            exact hxr
          · rcases List.mem_cons.mp hzm with hzy | hzm2
            · rw [hzy]
              omega
            · exact hlt z (List.mem_cons_of_mem c hzm2)

/-- Splitting a filtered map pulls back to a split of the source
list. -/
theorem map_filter_split {A B : Type} (g : A → B) (q : B → Bool) (l : List A)
    {m1 m2 : List B} {b : B} (h : (l.map g).filter q = m1 ++ b :: m2) :
    ∃ l1 a l2, l = l1 ++ a :: l2 ∧ g a = b ∧ q b = true ∧
      (l1.map g).filter q = m1 ∧ (l2.map g).filter q = m2 := by
  induction l generalizing m1 with
  | nil =>
    simp only [List.map_nil, List.filter_nil] at h
    exact absurd h.symm (List.append_ne_nil_of_right_ne_nil m1 (by simp))
  | cons a l ih =>
    simp only [List.map_cons, List.filter_cons] at h
    by_cases hq : q (g a) = true
    · rw [if_pos hq] at h
      cases m1 with
      | nil =>
        simp only [List.nil_append, List.cons.injEq] at h
        exact ⟨[], a, l, rfl, h.1, h.1 ▸ hq, rfl, by simpa using h.2⟩
      | cons c m1 =>
        simp only [List.cons_append, List.cons.injEq] at h
        rcases ih h.2 with ⟨l1, a0, l2, hsplit, hg, hqb, hf1, hf2⟩
        exact ⟨a :: l1, a0, l2, by rw [hsplit, List.cons_append], hg, hqb,
          by rw [List.map_cons, List.filter_cons, if_pos hq, hf1, h.1], hf2⟩
    · rw [if_neg hq] at h
      rcases ih h with ⟨l1, a0, l2, hsplit, hg, hqb, hf1, hf2⟩
      exact ⟨a :: l1, a0, l2, by rw [hsplit, List.cons_append], hg, hqb,
        by simp [List.filter_cons, hq, hf1], hf2⟩

theorem round2_nonneg {q : ℚ} (h : 0 ≤ q) : 0 ≤ round2 q := by
  unfold round2
  have h1 : (0 : ℤ) ≤ round (100 * q) := by
    rw [round_eq]
    have : (0 : ℤ) ≤ ⌊(0 : ℚ) + 1 / 2⌋ := by norm_num
    calc (0 : ℤ) ≤ ⌊(0 : ℚ) + 1 / 2⌋ := this
      _ ≤ ⌊100 * q + 1 / 2⌋ := by
          apply Int.floor_le_floor
          nlinarith
  positivity

theorem round2_le_one {q : ℚ} (h : q ≤ 1) : round2 q ≤ 1 := by
  unfold round2
  rw [round_eq]
  have h1 : (⌊100 * q + 1 / 2⌋ : ℤ) ≤ 100 := by
    have : 100 * q + 1 / 2 ≤ (100 : ℚ) + 1 / 2 := by nlinarith
    calc (⌊100 * q + 1 / 2⌋ : ℤ) ≤ ⌊(100 : ℚ) + 1 / 2⌋ := Int.floor_le_floor this
      _ = 100 := by norm_num
  rw [div_le_one (by norm_num)]
  exact_mod_cast h1

theorem round2_lt_one {q : ℚ} (h : q < 199 / 200) : round2 q < 1 := by
  unfold round2
  rw [round_eq]
  have h1 : (⌊100 * q + 1 / 2⌋ : ℤ) < 100 := by
    rw [Int.floor_lt]
    push_cast
    nlinarith
  rw [div_lt_one (by norm_num)]
  exact_mod_cast h1

/-- Whitespace-only input cleans to the empty string. -/
theorem clean_text_ws {t : List Char} (h : ∀ c ∈ t, c.isWhitespace = true) :
    clean_text t = [] := by
  unfold clean_text
  have h1 : lowerStr t = t := map_fix (fun c hc => pyLower_ws (h c hc))
  rw [h1]
  have h2 : t.map (fun c => if keptChar c then c else ' ') = t := by
    apply map_fix
    intro c hc
    have : keptChar c = true := by
      unfold keptChar
      rw [h c hc]
      simp
    rw [if_pos this]
  rw [h2]
  have hws : ∀ (l : List Char), (∀ c ∈ l, c.isWhitespace = true) →
      collapseWSAux true l = [] := by
    intro l
    induction l with
    | nil => intro _; rfl
    | cons d rest ih =>
      intro hl
      rw [collapseWSAux, if_pos (hl d (by simp)), if_pos rfl]
      exact ih (fun x hx => hl x (by simp [hx]))
  cases t with
  | nil => rfl
  | cons c rest =>
    show stripStr (collapseWSAux false (c :: rest)) = []
    rw [collapseWSAux, if_pos (h c (by simp)),
      if_neg (by simp : ¬ (false = true)),
      hws rest (fun x hx => h x (by simp [hx]))]
    decide

/-- The state-threading loop of `classify_textS` leaves the state fixed
and computes the pure partition at that state. -/
theorem foldS_eq (st0 : SysState) (l : List ExtractedRequirement)
    (acc : List ClassificationResult × List ClassificationResult) :
    l.foldl
      (fun (acc2 : (List ClassificationResult × List ClassificationResult) × SysState)
          (rd : ExtractedRequirement) =>
        let cs := classify_requirementS acc2.2 rd
        (if cs.1.classification = Label.FR then ((acc2.1.1 ++ [cs.1], acc2.1.2), cs.2)
         else ((acc2.1.1, acc2.1.2 ++ [cs.1]), cs.2)))
      (acc, st0) =
    (l.foldl
      (fun (acc : List ClassificationResult × List ClassificationResult) rd =>
        let c := classify_requirement_with st0.functional_keywords st0.nfr_keywords rd
        if c.classification = Label.FR then (acc.1 ++ [c], acc.2)
        else (acc.1, acc.2 ++ [c]))
      acc, st0) := by
  induction l generalizing acc with
  | nil => rfl
  | cons rd l ih =>
    simp only [List.foldl_cons, classify_requirementS]
    by_cases h : (classify_requirement_with st0.functional_keywords
        st0.nfr_keywords rd).classification = Label.FR
    · simp only [if_pos h]
      exact ih _
    · simp only [if_neg h]
      exact ih _

/-- Lemma: `classify_textS` computes the pure report of its state's
configuration and returns the state unchanged. -/
theorem classify_textS_eq (st : SysState) (nlp : NLP) (text : List Char) :
    classify_textS st nlp text =
      (classify_text_with st.functional_keywords st.nfr_keywords st.stop_words nlp text,
       st) := by
  unfold classify_textS classify_text_with extractS preprocessS partitionLoop
    extract_with
  simp only [foldS_eq]

theorem length_filterMap_eq_countP {α β : Type} (f : α → Option β) (l : List α) :
    (l.filterMap f).length = l.countP (fun a => (f a).isSome) := by
  induction l with
  | nil => rfl
  | cons a l ih =>
    rw [List.filterMap_cons, List.countP_cons]
    cases h : f a <;> simp [h, ih]

/-- A minimal concrete instantiation of the linguistic primitives, used
for counterexamples and witnesses: the segmenter returns the cleaned
text as a single sentence (as NLTK does on the one-sentence inputs
below), tokenization and tagging are trivial. -/
def simpleNLP : NLP :=
  { sent_tokenize := fun t => if t.isEmpty then [] else [t],
    word_tokenize := fun _ => [],
    pos_tag := fun _ => [],
    lemmatize_word := fun w => w,
    base_stopwords := [] }

/-! ## Claim theorems -/

/-- C3.  `classify_requirement` labels a requirement NFR if and only if
the final nfr score — the count of Non-Functional keywords present,
plus a +3 bonus when a performance-indicator pattern matches and a +2
bonus when a quality-attribute word appears — is strictly greater than
the fr score; on `fr_score > nfr_score` and on ties the label is FR.
The performance bonus fires exactly when one of the five
performance regexes matches somewhere in the lowercased phrase, and the
quality bonus exactly when one of the fixed quality words occurs as a
substring. -/
theorem classify_label_rule (rd : ExtractedRequirement) :
    ((classify_requirement rd).classification = Label.NFR ↔
      (classify_requirement rd).fr_score < (classify_requirement rd).nfr_score)
    ∧ ((classify_requirement rd).classification = Label.FR ↔
      ¬ (classify_requirement rd).fr_score < (classify_requirement rd).nfr_score)
    ∧ (classify_requirement rd).fr_score =
        calculate_keyword_score rd.extracted_requirement FUNCTIONAL_KEYWORDS
    ∧ (classify_requirement rd).nfr_score =
        calculate_keyword_score rd.extracted_requirement NON_FUNCTIONAL_KEYWORDS
        + (if has_performance_indicators rd.extracted_requirement then 3 else 0)
        + (if has_quality_attributes rd.extracted_requirement then 2 else 0)
    ∧ (has_performance_indicators rd.extracted_requirement = true ↔
        ∃ p ∈ performance_patterns, RSearches p (lowerStr rd.extracted_requirement))
    ∧ (has_quality_attributes rd.extracted_requirement = true ↔
        ∃ w ∈ quality_words, SubstrOf w (lowerStr rd.extracted_requirement)) := by
  unfold classify_requirement classify_requirement_with
  rw [lower_functional_keywords, lower_nfr_keywords]
  refine ⟨?_, ?_, rfl, rfl, ?_, ?_⟩
  · by_cases h : calculate_keyword_score rd.extracted_requirement FUNCTIONAL_KEYWORDS <
        calculate_keyword_score rd.extracted_requirement NON_FUNCTIONAL_KEYWORDS
        + (if has_performance_indicators rd.extracted_requirement then 3 else 0)
        + (if has_quality_attributes rd.extracted_requirement then 2 else 0)
    · simp [if_pos h, h]
    · simp [if_neg h, h]
  · by_cases h : calculate_keyword_score rd.extracted_requirement FUNCTIONAL_KEYWORDS <
        calculate_keyword_score rd.extracted_requirement NON_FUNCTIONAL_KEYWORDS
        + (if has_performance_indicators rd.extracted_requirement then 3 else 0)
        + (if has_quality_attributes rd.extracted_requirement then 2 else 0)
    · simp [if_pos h, h]
    · simp [if_neg h, h]
  · unfold has_performance_indicators
    rw [List.any_eq_true]
    constructor
    · rintro ⟨p, hp, hs⟩
      exact ⟨p, hp, (rsearch_iff p _).mp hs⟩
    · rintro ⟨p, hp, hs⟩
      exact ⟨p, hp, (rsearch_iff p _).mpr hs⟩
  · unfold has_quality_attributes
    rw [List.any_eq_true]
    constructor
    · rintro ⟨w, hw, hs⟩
      exact ⟨w, hw, (containsSub_iff w _).mp hs⟩
    · rintro ⟨w, hw, hs⟩
      exact ⟨w, hw, (containsSub_iff w _).mpr hs⟩

/-- C6.  `is_requirement_sentence` holds exactly when the lowercased
sentence contains a configured requirement indicator as a plain
substring, or one of the configured user-story regexes matches inside
it; the sentence `Hello there.` is not detected, and a pipeline whose
segmenter returns it as the one sentence of the cleaned input extracts
zero requirements from it. -/
theorem detection_rule :
    (∀ s : List Char, is_requirement_sentence s = true ↔
      ((∃ ind ∈ REQUIREMENT_INDICATORS, SubstrOf ind (lowerStr s)) ∨
       (∃ p ∈ USER_STORY_PATTERNS, RSearches p (lowerStr s))))
    ∧ is_requirement_sentence ("Hello there.".data) = false
    ∧ (∀ nlp : NLP, nlp.sent_tokenize ("hello there.".data) = [("hello there.".data)] →
        extract_requirements_from_text nlp ("Hello there.".data) = []) := by
  refine ⟨?_, by decide, ?_⟩
  · intro s
    unfold is_requirement_sentence
    rw [Bool.or_eq_true, List.any_eq_true, List.any_eq_true]
    constructor
    · rintro (⟨ind, hmem, hs⟩ | ⟨p, hmem, hs⟩)
      · exact Or.inl ⟨ind, hmem, (containsSub_iff ind _).mp hs⟩
      · exact Or.inr ⟨p, hmem, (rsearch_iff p _).mp hs⟩
    · rintro (⟨ind, hmem, hs⟩ | ⟨p, hmem, hs⟩)
      · exact Or.inl ⟨ind, hmem, (containsSub_iff ind _).mpr hs⟩
      · exact Or.inr ⟨p, hmem, (rsearch_iff p _).mpr hs⟩
  · intro nlp h
    have hc : clean_text ("Hello there.".data) = "hello there.".data := by decide
    simp only [extract_requirements_from_text, extract_with, preprocess_with, hc, h,
      List.map_cons, List.map_nil]
    rw [extractLoop_eq, List.filterMap_cons]
    have hdet : is_requirement_sentence
        ((processSentence nlp (initStopWords nlp.base_stopwords)
          ("hello there.".data)).sentence) = false := by
      have hsent : (processSentence nlp (initStopWords nlp.base_stopwords)
          ("hello there.".data)).sentence = "hello there.".data := rfl
      rw [hsent]
      decide
    rw [extractStep, if_neg (by rw [hdet]; exact fun hh => nomatch hh)]
    rfl

/-- Witness for `detection_rule` at the concrete segmenter. -/
theorem detection_rule_witness :
    extract_requirements_from_text simpleNLP ("Hello there.".data) = [] :=
  detection_rule.2.2 simpleNLP (by decide)

theorem round2_half : round2 (1 / 2 : ℚ) = 1 / 2 := by
  unfold round2
  rw [show (100 : ℚ) * (1 / 2) = ((50 : ℤ) : ℚ) by norm_num, round_intCast]
  norm_num

/-! Field equations of `classify_requirement_with`, all definitional. -/

theorem classify_fr_eq (fk nk : List (List Char)) (rd : ExtractedRequirement) :
    (classify_requirement_with fk nk rd).fr_score =
      calculate_keyword_score rd.extracted_requirement fk := rfl

theorem classify_nfr_eq (fk nk : List (List Char)) (rd : ExtractedRequirement) :
    (classify_requirement_with fk nk rd).nfr_score =
      calculate_keyword_score rd.extracted_requirement nk
      + (if has_performance_indicators rd.extracted_requirement then 3 else 0)
      + (if has_quality_attributes rd.extracted_requirement then 2 else 0) := rfl

theorem classify_class_eq (fk nk : List (List Char)) (rd : ExtractedRequirement) :
    (classify_requirement_with fk nk rd).classification =
      (if (classify_requirement_with fk nk rd).fr_score <
          (classify_requirement_with fk nk rd).nfr_score
        then Label.NFR else Label.FR) := rfl

theorem classify_conf_eq (fk nk : List (List Char)) (rd : ExtractedRequirement) :
    (classify_requirement_with fk nk rd).confidence = round2 (
      if (classify_requirement_with fk nk rd).fr_score <
          (classify_requirement_with fk nk rd).nfr_score
      then ((classify_requirement_with fk nk rd).nfr_score : ℚ) /
          (((classify_requirement_with fk nk rd).fr_score : ℚ) +
            ((classify_requirement_with fk nk rd).nfr_score : ℚ) + 1)
      else if (classify_requirement_with fk nk rd).nfr_score <
          (classify_requirement_with fk nk rd).fr_score
      then ((classify_requirement_with fk nk rd).fr_score : ℚ) /
          (((classify_requirement_with fk nk rd).fr_score : ℚ) +
            ((classify_requirement_with fk nk rd).nfr_score : ℚ) + 1)
      else 1 / 2) := rfl

theorem classify_cat_eq (fk nk : List (List Char)) (rd : ExtractedRequirement) :
    (classify_requirement_with fk nk rd).nfr_category =
      (if (classify_requirement_with fk nk rd).classification = Label.NFR
        then some (identify_nfr_category rd.extracted_requirement) else none) := rfl

/-- C2 counterexample.  On the single-keyword phrase `create` the
scores are `fr_score = 1`, `nfr_score = 0` — not a tie — yet the
confidence is exactly 0.50, because `1 / (1 + 0 + 1) = 1/2`.  So
confidence 0.50 does not characterize ties. -/
theorem confidence_half_counterexample :
    (classify_requirement ⟨[], "create".data, [], [], [], []⟩).fr_score = 1
    ∧ (classify_requirement ⟨[], "create".data, [], [], [], []⟩).nfr_score = 0
    ∧ (classify_requirement ⟨[], "create".data, [], [], [], []⟩).confidence = 1 / 2
    ∧ ¬ ((classify_requirement ⟨[], "create".data, [], [], [], []⟩).confidence = 1 / 2 →
        (classify_requirement ⟨[], "create".data, [], [], [], []⟩).fr_score =
        (classify_requirement ⟨[], "create".data, [], [], [], []⟩).nfr_score) := by
  have hfr : (classify_requirement ⟨[], "create".data, [], [], [], []⟩).fr_score = 1 := by
    decide
  have hnfr : (classify_requirement ⟨[], "create".data, [], [], [], []⟩).nfr_score = 0 := by
    decide
  have hconf : (classify_requirement ⟨[], "create".data, [], [], [], []⟩).confidence
      = 1 / 2 := by
    unfold classify_requirement
    rw [classify_conf_eq]
    unfold classify_requirement at hfr hnfr
    rw [hfr, hnfr]
    norm_num
    exact round2_half
  exact ⟨hfr, hnfr, hconf, fun himp => by
    have := himp hconf
    rw [hfr, hnfr] at this
    cases this⟩

/-- C2 as amended: confidence always lies in `[0, 1]`, and a score tie
forces confidence exactly 0.50; the converse direction of the claimed
equivalence is refuted by `confidence_half_counterexample`. -/
theorem confidence_bounds (rd : ExtractedRequirement) :
    0 ≤ (classify_requirement rd).confidence
    ∧ (classify_requirement rd).confidence ≤ 1
    ∧ ((classify_requirement rd).fr_score = (classify_requirement rd).nfr_score →
        (classify_requirement rd).confidence = 1 / 2) := by
  unfold classify_requirement
  rw [classify_conf_eq]
  set F := (classify_requirement_with (FUNCTIONAL_KEYWORDS.map lowerStr)
      (NON_FUNCTIONAL_KEYWORDS.map lowerStr) rd).fr_score with hF
  set N := (classify_requirement_with (FUNCTIONAL_KEYWORDS.map lowerStr)
      (NON_FUNCTIONAL_KEYWORDS.map lowerStr) rd).nfr_score with hN
  rcases lt_trichotomy F N with hlt | heq | hgt
  · rw [if_pos hlt]
    have hq0 : (0 : ℚ) ≤ (N : ℚ) / ((F : ℚ) + (N : ℚ) + 1) := by positivity
    have hq1 : (N : ℚ) / ((F : ℚ) + (N : ℚ) + 1) ≤ 1 := by
      rw [div_le_one (by positivity)]
      have h0 : (0 : ℚ) ≤ (F : ℚ) := by positivity
      linarith
    exact ⟨round2_nonneg hq0, round2_le_one hq1, fun habs => absurd habs (by omega)⟩
  · rw [if_neg (by omega), if_neg (by omega)]
    exact ⟨by rw [round2_half]; norm_num, by rw [round2_half]; norm_num,
      fun _ => round2_half⟩
  · rw [if_neg (by omega), if_pos hgt]
    have hq0 : (0 : ℚ) ≤ (F : ℚ) / ((F : ℚ) + (N : ℚ) + 1) := by positivity
    have hq1 : (F : ℚ) / ((F : ℚ) + (N : ℚ) + 1) ≤ 1 := by
      rw [div_le_one (by positivity)]
      have h0 : (0 : ℚ) ≤ (N : ℚ) := by positivity
      linarith
    exact ⟨round2_nonneg hq0, round2_le_one hq1, fun habs => absurd habs (by omega)⟩

/-- Witness for `confidence_bounds`: a zero-keyword phrase ties at
`0 = 0` and receives confidence exactly 0.50. -/
theorem confidence_bounds_witness :
    (classify_requirement ⟨[], "x".data, [], [], [], []⟩).fr_score =
      (classify_requirement ⟨[], "x".data, [], [], [], []⟩).nfr_score
    ∧ (classify_requirement ⟨[], "x".data, [], [], [], []⟩).confidence = 1 / 2 := by
  have hb := confidence_bounds ⟨[], "x".data, [], [], [], []⟩
  have hsc : (classify_requirement ⟨[], "x".data, [], [], [], []⟩).fr_score =
      (classify_requirement ⟨[], "x".data, [], [], [], []⟩).nfr_score := by decide
  exact ⟨hsc, hb.2.2 hsc⟩

theorem calculate_keyword_score_le (text : List Char) (kws : List (List Char)) :
    calculate_keyword_score text kws ≤ kws.length :=
  List.countP_le_length _

/-- C4.  Outside ties, the confidence equals
`winner / (fr_score + nfr_score + 1)` rounded to two decimals; on a tie
it is the fixed 0.50; and because of the `+1` in the denominator
(together with the keyword lists bounding both scores), confidence
never reaches 1.0. -/
theorem confidence_formula (rd : ExtractedRequirement) :
    ((classify_requirement rd).fr_score < (classify_requirement rd).nfr_score →
      (classify_requirement rd).confidence =
        round2 (((classify_requirement rd).nfr_score : ℚ) /
          (((classify_requirement rd).fr_score : ℚ) +
            ((classify_requirement rd).nfr_score : ℚ) + 1)))
    ∧ ((classify_requirement rd).nfr_score < (classify_requirement rd).fr_score →
      (classify_requirement rd).confidence =
        round2 (((classify_requirement rd).fr_score : ℚ) /
          (((classify_requirement rd).fr_score : ℚ) +
            ((classify_requirement rd).nfr_score : ℚ) + 1)))
    ∧ ((classify_requirement rd).fr_score = (classify_requirement rd).nfr_score →
      (classify_requirement rd).confidence = 1 / 2)
    ∧ (classify_requirement rd).confidence < 1 := by
  unfold classify_requirement
  rw [classify_conf_eq]
  set F := (classify_requirement_with (FUNCTIONAL_KEYWORDS.map lowerStr)
      (NON_FUNCTIONAL_KEYWORDS.map lowerStr) rd).fr_score with hF
  set N := (classify_requirement_with (FUNCTIONAL_KEYWORDS.map lowerStr)
      (NON_FUNCTIONAL_KEYWORDS.map lowerStr) rd).nfr_score with hN
  have hFb : F ≤ 55 := by
    rw [hF, classify_fr_eq]
    have := calculate_keyword_score_le rd.extracted_requirement
      (FUNCTIONAL_KEYWORDS.map lowerStr)
    have hlen : (FUNCTIONAL_KEYWORDS.map lowerStr).length = 55 := by decide
    omega
  have hNb : N ≤ 53 := by
    rw [hN, classify_nfr_eq]
    have := calculate_keyword_score_le rd.extracted_requirement
      (NON_FUNCTIONAL_KEYWORDS.map lowerStr)
    have hlen : (NON_FUNCTIONAL_KEYWORDS.map lowerStr).length = 48 := by decide
    split_ifs <;> omega
  rcases lt_trichotomy F N with hlt | heq | hgt
  · rw [if_pos hlt]
    refine ⟨fun _ => rfl, fun habs => absurd habs (by omega),
      fun habs => absurd habs (by omega), ?_⟩
    apply round2_lt_one
    rw [div_lt_div_iff₀ (by positivity) (by norm_num)]
    have hc1 : (N : ℚ) ≤ 53 := by exact_mod_cast hNb
    have hc2 : (0 : ℚ) ≤ (F : ℚ) := by positivity
    have hc3 : (N : ℚ) + 1 ≤ (F : ℚ) + (N : ℚ) + 1 := by linarith
    nlinarith
  · rw [if_neg (by omega), if_neg (by omega)]
    refine ⟨fun habs => absurd habs (by omega), fun habs => absurd habs (by omega),
      fun _ => round2_half, ?_⟩
    rw [round2_half]
    norm_num
  · rw [if_neg (by omega), if_pos hgt]
    refine ⟨fun habs => absurd habs (by omega), fun _ => rfl,
      fun habs => absurd habs (by omega), ?_⟩
    apply round2_lt_one
    rw [div_lt_div_iff₀ (by positivity) (by norm_num)]
    have hc1 : (F : ℚ) ≤ 55 := by exact_mod_cast hFb
    have hc2 : (0 : ℚ) ≤ (N : ℚ) := by positivity
    nlinarith

/-- Witness for `confidence_formula` at the phrase `create`
(`fr_score = 1 > nfr_score = 0`). -/
theorem confidence_formula_witness :
    (classify_requirement ⟨[], "create".data, [], [], [], []⟩).nfr_score <
      (classify_requirement ⟨[], "create".data, [], [], [], []⟩).fr_score
    ∧ (classify_requirement ⟨[], "create".data, [], [], [], []⟩).confidence =
      round2 (((classify_requirement ⟨[], "create".data, [], [], [], []⟩).fr_score : ℚ) /
        (((classify_requirement ⟨[], "create".data, [], [], [], []⟩).fr_score : ℚ) +
          ((classify_requirement ⟨[], "create".data, [], [], [], []⟩).nfr_score : ℚ) + 1)) :=
  ⟨by decide, (confidence_formula ⟨[], "create".data, [], [], [], []⟩).2.1 (by decide)⟩

/-- The positively-scoring categories of `identify_nfr_category`, in
table order (an analysis view of its `category_scores` dict). -/
def categoryScores (text : List Char) : List (List Char × Nat) :=
  (NFR_CATEGORIES.map (fun p => (p.1, calculate_keyword_score text p.2))).filter
    (fun q => 0 < q.2)

theorem identify_eq (text : List Char) :
    identify_nfr_category text =
      (match categoryScores text with
        | [] => "general".data
        | x :: xs => (pickMax x xs).1) := rfl

/-- C5.  `identify_nfr_category` returns `general` exactly when every
configured category's keyword list scores zero on the text; otherwise
it returns a category with positive score that strictly beats every
earlier category and weakly beats every later one (first maximal
category in table order).  FR-labelled requirements carry no category,
NFR-labelled ones carry exactly this one. -/
theorem category_rule :
    (∀ text : List Char,
      (identify_nfr_category text = "general".data ↔
        ∀ p ∈ NFR_CATEGORIES, calculate_keyword_score text p.2 = 0)
      ∧ (identify_nfr_category text ≠ "general".data →
          ∃ kws l1 l2, NFR_CATEGORIES = l1 ++ (identify_nfr_category text, kws) :: l2
            ∧ 0 < calculate_keyword_score text kws
            ∧ (∀ q ∈ l1, calculate_keyword_score text q.2 <
                calculate_keyword_score text kws)
            ∧ (∀ q ∈ l2, calculate_keyword_score text q.2 ≤
                calculate_keyword_score text kws)))
    ∧ (∀ rd : ExtractedRequirement,
        (classify_requirement rd).classification = Label.FR →
        (classify_requirement rd).nfr_category = none)
    ∧ (∀ rd : ExtractedRequirement,
        (classify_requirement rd).classification = Label.NFR →
        (classify_requirement rd).nfr_category =
          some (identify_nfr_category rd.extracted_requirement)) := by
  refine ⟨?_, ?_, ?_⟩
  · intro text
    cases hfc : categoryScores text with
    | nil =>
      have hgen : identify_nfr_category text = "general".data := by
        rw [identify_eq, hfc]
      have hzero : ∀ p ∈ NFR_CATEGORIES, calculate_keyword_score text p.2 = 0 := by
        intro p hp
        have hmem : (p.1, calculate_keyword_score text p.2) ∈
            NFR_CATEGORIES.map (fun p => (p.1, calculate_keyword_score text p.2)) :=
          List.mem_map.mpr ⟨p, hp, rfl⟩
        by_contra hne
        have hpos : 0 < calculate_keyword_score text p.2 := Nat.pos_of_ne_zero hne
        have : (p.1, calculate_keyword_score text p.2) ∈ categoryScores text :=
          List.mem_filter.mpr ⟨hmem, by simpa using hpos⟩
        rw [hfc] at this
        cases this
      exact ⟨iff_of_true hgen hzero, fun hne => absurd hgen hne⟩
    | cons x xs =>
      have hres : identify_nfr_category text = (pickMax x xs).1 := by
        rw [identify_eq, hfc]
      rcases pickMax_spec x xs with ⟨m1, m2, hsplit, hlt, hle⟩
      have hfc2 : (NFR_CATEGORIES.map
          (fun p => (p.1, calculate_keyword_score text p.2))).filter
          (fun q => 0 < q.2) = m1 ++ (pickMax x xs) :: m2 := by
        rw [show (NFR_CATEGORIES.map
            (fun p => (p.1, calculate_keyword_score text p.2))).filter
            (fun q => 0 < q.2) = categoryScores text from rfl, hfc, hsplit]
      rcases map_filter_split _ _ _ hfc2 with ⟨l1, a, l2, hcat, hga, hq, hf1, hf2⟩
      have hani : a.1 = identify_nfr_category text := by
        rw [hres, ← hga]
      have hsc : (pickMax x xs).2 = calculate_keyword_score text a.2 := by
        rw [← hga]
      have hpos : 0 < calculate_keyword_score text a.2 := by
        have := hq
        rw [← hga] at this
        simpa using this
      have hnotgen : identify_nfr_category text ≠ "general".data := by
        have hnames : ∀ p ∈ NFR_CATEGORIES, p.1 ≠ "general".data := by decide
        have hamem : a ∈ NFR_CATEGORIES := by
          rw [hcat]
          exact List.mem_append.mpr (Or.inr (List.mem_cons_self a l2))
        rw [← hani]
        exact hnames a hamem
      refine ⟨⟨fun hgen => absurd hgen hnotgen, fun hzero => ?_⟩, fun _ => ?_⟩
      · exfalso
        have := hzero a (by
          rw [hcat]
          exact List.mem_append.mpr (Or.inr (List.mem_cons_self a l2)))
        omega
      · refine ⟨a.2, l1, l2, ?_, hpos, ?_, ?_⟩
        · rw [← hani]
          simpa using hcat
        · intro q' hq'
          by_cases hqp : 0 < calculate_keyword_score text q'.2
          · have hmem1 : (q'.1, calculate_keyword_score text q'.2) ∈ m1 := by
              rw [← hf1]
              exact List.mem_filter.mpr
                ⟨List.mem_map.mpr ⟨q', hq', rfl⟩, by simpa using hqp⟩
            have := hlt _ hmem1
            rw [hsc] at this
            exact this
          · omega
        · intro q' hq'
          by_cases hqp : 0 < calculate_keyword_score text q'.2
          · have hmem2 : (q'.1, calculate_keyword_score text q'.2) ∈ m2 := by
              rw [← hf2]
              exact List.mem_filter.mpr
                ⟨List.mem_map.mpr ⟨q', hq', rfl⟩, by simpa using hqp⟩
            have := hle _ hmem2
            rw [hsc] at this
            exact this
          · omega
  · intro rd hfr
    unfold classify_requirement at *
    rw [classify_cat_eq, if_neg]
    rw [hfr]
    exact fun hh => nomatch hh
  · intro rd hnfr
    unfold classify_requirement at *
    rw [classify_cat_eq, if_pos hnfr]

/-- Witness for `category_rule`: the phrase `be secure` scores only in
the `security` category, which is returned. -/
theorem category_rule_witness :
    identify_nfr_category "be secure".data = "security".data
    ∧ ∃ kws l1 l2, NFR_CATEGORIES = l1 ++ (identify_nfr_category "be secure".data, kws) :: l2
        ∧ 0 < calculate_keyword_score "be secure".data kws
        ∧ (∀ q ∈ l1, calculate_keyword_score "be secure".data q.2 <
            calculate_keyword_score "be secure".data kws)
        ∧ (∀ q ∈ l2, calculate_keyword_score "be secure".data q.2 ≤
            calculate_keyword_score "be secure".data kws) :=
  ⟨by decide, (category_rule.1 "be secure".data).2 (by decide)⟩

/-- C1 counterexample.  The cleaned sentence
`as a user, i want so that fun.` passes detection (it matches the
user-story pattern `as a (.*?), i want (.*)`), but extraction pattern 1
captures an empty phrase (`i want ` is immediately followed by the
terminator `so that`), and the `if requirement:` truthiness guard then
drops the record: a detected sentence produces zero
ExtractedRequirements, not exactly one. -/
theorem detected_sentence_without_record :
    is_requirement_sentence ("as a user, i want so that fun.".data) = true
    ∧ (preprocess_full_pipeline simpleNLP
        ("As a user, I want so that fun.".data)).processed_sentences.map
        (fun sd => sd.sentence) = [("as a user, i want so that fun.".data)]
    ∧ extract_requirement_from_user_story ("as a user, i want so that fun.".data) = []
    ∧ extract_requirements_from_text simpleNLP
        ("As a user, I want so that fun.".data) = [] :=
  ⟨by decide, by decide, by decide, by decide⟩

/-- C1 as amended.  Extraction produces at most one record per
processed sentence: exactly one for each detected sentence whose
extracted phrase is nonempty, and zero for a detected sentence whose
matched pattern captures an empty phrase (dropped by the
`if requirement:` guard); undetected sentences contribute nothing.
When none of the three extraction patterns matches, the fallback
returns the whole stripped sentence. -/
theorem extraction_totality (nlp : NLP) (text : List Char) :
    extract_requirements_from_text nlp text =
      ((preprocess_full_pipeline nlp text).processed_sentences).filterMap extractStep
    ∧ (extract_requirements_from_text nlp text).length =
        ((preprocess_full_pipeline nlp text).processed_sentences).countP
          (fun sd => is_requirement_sentence sd.sentence &&
            ! (extract_requirement_from_user_story sd.sentence).isEmpty)
    ∧ (∀ sd : SentenceData, is_requirement_sentence sd.sentence = true →
        (extract_requirement_from_user_story sd.sentence).isEmpty = false →
        extractStep sd = some ⟨sd.sentence,
          extract_requirement_from_user_story sd.sentence,
          sd.tokens, sd.verbs, sd.nouns, sd.lemmatized_tokens⟩)
    ∧ (∀ sd : SentenceData, is_requirement_sentence sd.sentence = true →
        (extract_requirement_from_user_story sd.sentence).isEmpty = true →
        extractStep sd = none)
    ∧ (∀ s : List Char, scanLeft tryP1At (lowerStr s) = none →
        scanLeft tryP2At (lowerStr s) = none →
        scanLeft tryP3At (lowerStr s) = none →
        extract_requirement_from_user_story s = stripStr s) := by
  have hmain : extract_requirements_from_text nlp text =
      ((preprocess_full_pipeline nlp text).processed_sentences).filterMap extractStep := by
    rw [show extract_requirements_from_text nlp text =
      extractLoop ((preprocess_full_pipeline nlp text).processed_sentences) from rfl]
    exact extractLoop_eq _
  refine ⟨hmain, ?_, ?_, ?_, ?_⟩
  · rw [hmain, length_filterMap_eq_countP]
    apply List.countP_congr
    intro sd _
    unfold extractStep
    by_cases h1 : is_requirement_sentence sd.sentence = true
    · by_cases h2 : (extract_requirement_from_user_story sd.sentence).isEmpty = true
      · simp [h1, h2]
      · simp [h1, h2]
    · simp [h1]
  · intro sd h1 h2
    unfold extractStep
    rw [if_pos h1, if_neg (by rw [h2]; exact fun hh => nomatch hh)]
  · intro sd h1 h2
    unfold extractStep
    rw [if_pos h1, if_pos h2]
  · intro s h1 h2 h3
    unfold extract_requirement_from_user_story
    simp only [h1, h2, h3]

/-- Witness for `extraction_totality`: a detected sentence with a
nonempty extracted phrase yields exactly its one record. -/
theorem extraction_totality_witness :
    extractStep ⟨"the system must work.".data, [], [], [], [], [], []⟩ =
      some ⟨"the system must work.".data,
        extract_requirement_from_user_story "the system must work.".data,
        [], [], [], []⟩ :=
  (extraction_totality simpleNLP []).2.2.1
    ⟨"the system must work.".data, [], [], [], [], [], []⟩ (by decide) (by decide)

/-- C7.  For every input, the report's total equals the sum of the FR
and NFR counts, the two lists are the label-filtered classification
results in extraction order (so each result lands in exactly the list
matching its label), and the counts are the lengths of the lists. -/
theorem report_invariants (nlp : NLP) (text : List Char) :
    (classify_text nlp text).total_requirements =
      (classify_text nlp text).fr_count + (classify_text nlp text).nfr_count
    ∧ (classify_text nlp text).fr_count =
        (classify_text nlp text).functional_requirements.length
    ∧ (classify_text nlp text).nfr_count =
        (classify_text nlp text).non_functional_requirements.length
    ∧ (classify_text nlp text).functional_requirements =
        ((extract_requirements_from_text nlp text).map classify_requirement).filter
          (fun c => c.classification = Label.FR)
    ∧ (classify_text nlp text).non_functional_requirements =
        ((extract_requirements_from_text nlp text).map classify_requirement).filter
          (fun c => ¬ c.classification = Label.FR)
    ∧ (∀ c ∈ (extract_requirements_from_text nlp text).map classify_requirement,
        (c ∈ (classify_text nlp text).functional_requirements ↔
          c.classification = Label.FR)
        ∧ (c ∈ (classify_text nlp text).non_functional_requirements ↔
          c.classification = Label.NFR)) := by
  have hreqs : extract_requirements_from_text nlp text =
      extract_with nlp (initStopWords nlp.base_stopwords) text := rfl
  have hfr : (classify_text nlp text).functional_requirements =
      ((extract_requirements_from_text nlp text).map classify_requirement).filter
        (fun c => c.classification = Label.FR) := by
    show (partitionLoop (FUNCTIONAL_KEYWORDS.map lowerStr)
      (NON_FUNCTIONAL_KEYWORDS.map lowerStr)
      (extract_with nlp (initStopWords nlp.base_stopwords) text)).1 = _
    rw [partitionLoop_eq]
    rfl
  have hnfr : (classify_text nlp text).non_functional_requirements =
      ((extract_requirements_from_text nlp text).map classify_requirement).filter
        (fun c => ¬ c.classification = Label.FR) := by
    show (partitionLoop (FUNCTIONAL_KEYWORDS.map lowerStr)
      (NON_FUNCTIONAL_KEYWORDS.map lowerStr)
      (extract_with nlp (initStopWords nlp.base_stopwords) text)).2 = _
    rw [partitionLoop_eq]
    rfl
  have hfrc : (classify_text nlp text).fr_count =
      (classify_text nlp text).functional_requirements.length := rfl
  have hnfrc : (classify_text nlp text).nfr_count =
      (classify_text nlp text).non_functional_requirements.length := rfl
  have htot : (classify_text nlp text).total_requirements =
      (extract_requirements_from_text nlp text).length := rfl
  refine ⟨?_, hfrc, hnfrc, hfr, hnfr, ?_⟩
  · rw [htot, hfrc, hnfrc, hfr, hnfr,
      show (extract_requirements_from_text nlp text).length =
        ((extract_requirements_from_text nlp text).map classify_requirement).length from
        (List.length_map _ _).symm]
    exact length_filter_split
      (fun c : ClassificationResult => c.classification = Label.FR) _
  · intro c hc
    constructor
    · rw [hfr]
      constructor
      · intro hmem
        exact of_decide_eq_true (List.mem_filter.mp hmem).2
      · intro hlab
        exact List.mem_filter.mpr ⟨hc, decide_eq_true hlab⟩
    · rw [hnfr]
      have hlabel : c.classification = Label.NFR ↔ ¬ c.classification = Label.FR := by
        cases hcc : c.classification <;> simp
      constructor
      · intro hmem
        exact hlabel.mpr (of_decide_eq_true (List.mem_filter.mp hmem).2)
      · intro hlab
        exact List.mem_filter.mpr ⟨hc, decide_eq_true (hlabel.mp hlab)⟩

/-- Witness for `report_invariants` on a concrete one-requirement
input: the single FR result sits in the FR list and not in the NFR
list. -/
theorem report_invariants_witness :
    (classify_requirement ⟨"the system must work.".data, "work".data, [], [], [], []⟩ ∈
      (classify_text simpleNLP ("The system must work.".data)).functional_requirements ↔
      (classify_requirement
        ⟨"the system must work.".data, "work".data, [], [], [], []⟩).classification =
        Label.FR)
    ∧ (classify_requirement ⟨"the system must work.".data, "work".data, [], [], [], []⟩ ∈
      (classify_text simpleNLP
        ("The system must work.".data)).non_functional_requirements ↔
      (classify_requirement
        ⟨"the system must work.".data, "work".data, [], [], [], []⟩).classification =
        Label.NFR) := by
  have hext : extract_requirements_from_text simpleNLP ("The system must work.".data) =
      [⟨"the system must work.".data, "work".data, [], [], [], []⟩] := by decide
  have hmem : classify_requirement
      ⟨"the system must work.".data, "work".data, [], [], [], []⟩ ∈
      (extract_requirements_from_text simpleNLP
        ("The system must work.".data)).map classify_requirement := by
    rw [hext]
    exact List.mem_singleton_self _
  exact (report_invariants simpleNLP ("The system must work.".data)).2.2.2.2.2 _ hmem

/-- C8.  Empty or whitespace-only input cleans to the empty string,
yields no processed sentences (given the segmenter's contract that
empty text has no sentences), and produces the all-zero report; no
anomaly arises anywhere in the pipeline. -/
theorem empty_input_report (nlp : NLP) (text : List Char)
    (hseg : nlp.sent_tokenize [] = [])
    (hws : ∀ c ∈ text, c.isWhitespace = true) :
    clean_text text = []
    ∧ (preprocess_full_pipeline nlp text).processed_sentences = []
    ∧ classify_text nlp text =
      { functional_requirements := [], non_functional_requirements := [],
        total_requirements := 0, fr_count := 0, nfr_count := 0 } := by
  have hct := clean_text_ws hws
  refine ⟨hct, ?_, ?_⟩
  · show ((nlp.sent_tokenize (clean_text text)).map
      (processSentence nlp (initStopWords nlp.base_stopwords))) = []
    rw [hct, hseg]
    rfl
  · show classify_text_with (FUNCTIONAL_KEYWORDS.map lowerStr)
      (NON_FUNCTIONAL_KEYWORDS.map lowerStr) (initStopWords nlp.base_stopwords)
      nlp text = _
    unfold classify_text_with extract_with preprocess_with
    simp only [hct, hseg, List.map_nil]
    rfl

/-- Witness for `empty_input_report` at a single-space input. -/
theorem empty_input_report_witness :
    clean_text (" ".data) = []
    ∧ (preprocess_full_pipeline simpleNLP (" ".data)).processed_sentences = []
    ∧ classify_text simpleNLP (" ".data) =
      { functional_requirements := [], non_functional_requirements := [],
        total_requirements := 0, fr_count := 0, nfr_count := 0 } :=
  empty_input_report simpleNLP (" ".data) (by decide) (by decide)

/-- C9.  `classify_text` is a pure function of the initialized object
state, the linguistic primitives and the input text: its stateful
embedding returns the state unchanged, a second run from the resulting
state produces the identical report, and the run from the
freshly-initialized state agrees with the pure `classify_text`. -/
theorem classify_text_pure (st : SysState) (nlp : NLP) (text : List Char) :
    (classify_textS st nlp text).2 = st
    ∧ (classify_textS ((classify_textS st nlp text).2) nlp text).1 =
        (classify_textS st nlp text).1
    ∧ (classify_textS (initState nlp) nlp text).1 = classify_text nlp text := by
  refine ⟨by rw [classify_textS_eq], by simp only [classify_textS_eq], ?_⟩
  rw [classify_textS_eq]
  simp only [initState]
  rfl

/-- C10.  Every extracted record's `original_sentence` is one of the
segmenter's sentences of the cleaned text (not a fragment of the raw
input); the cleaned text is already lower-case, and — whenever the
segmenter returns substrings of its input, as sentence splitters do —
each echoed original sentence is therefore lower-case itself. -/
theorem original_sentences_cleaned (nlp : NLP) (text : List Char) :
    (∀ req ∈ extract_requirements_from_text nlp text,
      req.original_sentence ∈ nlp.sent_tokenize (clean_text text))
    ∧ lowerStr (clean_text text) = clean_text text
    ∧ ((∀ s ∈ nlp.sent_tokenize (clean_text text), SubstrOf s (clean_text text)) →
        ∀ req ∈ extract_requirements_from_text nlp text,
        lowerStr req.original_sentence = req.original_sentence) := by
  have hmem : ∀ req ∈ extract_requirements_from_text nlp text,
      req.original_sentence ∈ nlp.sent_tokenize (clean_text text) := by
    intro req hreq
    rw [show extract_requirements_from_text nlp text =
      extractLoop ((preprocess_full_pipeline nlp text).processed_sentences) from rfl,
      extractLoop_eq] at hreq
    rcases List.mem_filterMap.mp hreq with ⟨sd, hsd, hstep⟩
    have hos : req.original_sentence = sd.sentence := by
      unfold extractStep at hstep
      by_cases h1 : is_requirement_sentence sd.sentence = true
      · rw [if_pos h1] at hstep
        by_cases h2 : (extract_requirement_from_user_story sd.sentence).isEmpty = true
        · rw [if_pos h2] at hstep
          cases hstep
        · rw [if_neg h2] at hstep
          have := Option.some.inj hstep
          rw [← this]
      · rw [if_neg h1] at hstep
        cases hstep
    have hsd2 : sd ∈ (nlp.sent_tokenize (clean_text text)).map
        (processSentence nlp (initStopWords nlp.base_stopwords)) := hsd
    rcases List.mem_map.mp hsd2 with ⟨s, hs, hps⟩
    have hsent : sd.sentence = s := by
      rw [← hps]
      rfl
    rw [hos, hsent]
    exact hs
  refine ⟨hmem, lowerStr_clean_text text, ?_⟩
  intro hinf req hreq
  rcases hinf _ (hmem req hreq) with ⟨p, q, hpq⟩
  apply map_fix
  intro c hc
  apply clean_text_chars text
  rw [← hpq]
  simp only [List.mem_append]
  exact Or.inl (Or.inr hc)

/-- Witness for `original_sentences_cleaned` on a mixed-case input:
the echoed original sentence is the cleaned, lower-cased one. -/
theorem original_sentences_cleaned_witness :
    lowerStr ((⟨"the system must work.".data, "work".data, [], [], [], []⟩ :
        ExtractedRequirement).original_sentence) =
      (⟨"the system must work.".data, "work".data, [], [], [], []⟩ :
        ExtractedRequirement).original_sentence := by
  have hclean : clean_text ("The SYSTEM must WORK.".data) =
      "the system must work.".data := by decide
  have hseg : simpleNLP.sent_tokenize ("the system must work.".data) =
      [("the system must work.".data)] := by decide
  have hext : extract_requirements_from_text simpleNLP ("The SYSTEM must WORK.".data) =
      [⟨"the system must work.".data, "work".data, [], [], [], []⟩] := by decide
  have hinf : ∀ s ∈ simpleNLP.sent_tokenize (clean_text ("The SYSTEM must WORK.".data)),
      SubstrOf s (clean_text ("The SYSTEM must WORK.".data)) := by
    intro s hs
    rw [hclean, hseg] at hs
    rcases List.mem_singleton.mp hs with hs0
    rw [hclean, hs0]
    exact ⟨[], [], by simp⟩
  exact (original_sentences_cleaned simpleNLP
    ("The SYSTEM must WORK.".data)).2.2 hinf
    ⟨"the system must work.".data, "work".data, [], [], [], []⟩
    (by rw [hext]; exact List.mem_singleton_self _)

end FRNFR
